import Mathlib

/-!
Verification of the layout-and-visibility engine (globalLayout.ts).

The engine packs an ordered list of image metadata into a fixed 12000×12000
world tile using justified rows, builds a uniform-grid spatial index over the
packed rectangles, and answers world-wrapping visibility queries for arbitrary
viewport rectangles.  JavaScript numbers are modelled by exact rationals (ℚ);
`Math.floor` is `Int.floor` and `Math.round` is `jsRound` below.
-/

set_option maxHeartbeats 1000000

set_option allowUnsafeReducibility true

attribute [semireducible] Rat.add Rat.mul Rat.sub Rat.neg Rat.inv Rat.blt Rat.normalize

abbrev WORLD_SIZE : ℚ := 12000

abbrev TARGET_ROW_HEIGHT : ℚ := 320

abbrev GAP : ℚ := 30

abbrev CELL_SIZE : ℚ := 400

/-- JavaScript `Math.round`: round half toward positive infinity. -/
def jsRound (q : ℚ) : ℚ := ((⌊q + 1/2⌋ : ℤ) : ℚ)

structure ImageMeta where
  id : String
  aspectRatio : ℚ
deriving DecidableEq, Repr, Inhabited

structure PlacedImage where
  id : String
  x : ℚ
  y : ℚ
  width : ℚ
  height : ℚ
deriving DecidableEq, Repr, Inhabited

structure VisibleImage where
  image : PlacedImage
  renderX : ℚ
  renderY : ℚ
deriving DecidableEq, Repr

/-- Inner row-filling loop of `computeGlobalLayout` (lines 54-70 of the source).
The loop condition `imageIndex < allImages.length * 100` is realised through the
fuel argument: the wrapper `fillRow` supplies fuel `100 * length - idx`, so fuel
is positive exactly when `idx < 100 * length`. -/
def fillRowAux (images : List ImageMeta) : ℕ → ℕ → List (ImageMeta × ℚ) → ℚ →
    List (ImageMeta × ℚ) × ℚ × ℕ
  | 0, idx, row, total => (row, total, idx)
  | fuel + 1, idx, row, total =>
    let image := images.getD (idx % images.length) default
    let naturalWidth := TARGET_ROW_HEIGHT * image.aspectRatio
    let gapsIfAdded := (row.length : ℚ) * GAP
    let widthIfAdded := total + naturalWidth + gapsIfAdded
    if WORLD_SIZE < widthIfAdded ∧ 2 ≤ row.length then
      (row, total, idx)
    else
      fillRowAux images fuel (idx + 1) (row ++ [(image, naturalWidth)]) (total + naturalWidth)

/-- Collect the images of one row starting at cursor `idx`; returns the row
(image together with its natural width), the total natural width and the new
cursor. -/
def fillRow (images : List ImageMeta) (idx : ℕ) : List (ImageMeta × ℚ) × ℚ × ℕ :=
  fillRowAux images (100 * images.length - idx) idx [] 0

/-- Placement loop of one row (lines 91-112 of the source): every non-last image
gets its rounded scaled width, the last image absorbs the remaining space minus
the trailing world-wrap gap. -/
def placeRowGo (scale currentY rowHeight : ℚ) :
    List (ImageMeta × ℚ) → ℚ → List PlacedImage
  | [], _ => []
  | item :: rest, currentX =>
    let w : ℚ := if rest = [] then WORLD_SIZE - currentX - GAP else jsRound (item.2 * scale)
    { id := item.1.id, x := currentX, y := currentY, width := w, height := rowHeight } ::
      placeRowGo scale currentY rowHeight rest (currentX + w + GAP)

def placeRow (rowImages : List (ImageMeta × ℚ)) (scale currentY rowHeight : ℚ) :
    List PlacedImage :=
  placeRowGo scale currentY rowHeight rowImages 0

/-- Outer row loop of `computeGlobalLayout` (lines 48-115), one row per fuel
unit.  Fuel `100 * length + 1` always suffices (see the termination theorem):
each produced row consumes at least one cursor advance of the shared budget. -/
def buildRowsAux (images : List ImageMeta) : ℕ → ℚ → ℕ → List (List PlacedImage)
  | 0, _, _ => []
  | fuel + 1, currentY, idx =>
    if currentY < WORLD_SIZE then
      let fr := fillRow images idx
      let rowImages := fr.1
      let totalNaturalWidth := fr.2.1
      let idx2 := fr.2.2
      if rowImages.isEmpty then []
      else
        let numGaps : ℚ := (rowImages.length : ℚ) - 1
        let availableForImages := WORLD_SIZE - numGaps * GAP
        let scale := availableForImages / totalNaturalWidth
        let rowHeight0 := jsRound (TARGET_ROW_HEIGHT * scale)
        let remainingHeight := WORLD_SIZE - currentY - GAP
        if remainingHeight < rowHeight0 ∧ remainingHeight < 100 then []
        else
          let rowHeight := if remainingHeight < rowHeight0 then remainingHeight else rowHeight0
          placeRow rowImages scale currentY rowHeight ::
            buildRowsAux images fuel (currentY + rowHeight + GAP) idx2
    else []

/-- The packed layout, organised as its list of rows. -/
def computeGlobalLayoutRows (allImages : List ImageMeta) : List (List PlacedImage) :=
  buildRowsAux allImages (100 * allImages.length + 1) 0 0

/-- The cache-free core of `computeGlobalLayout` (lines 43-115): the flat list
of placed images. -/
def computeGlobalLayoutPure (allImages : List ImageMeta) : List PlacedImage :=
  (computeGlobalLayoutRows allImages).flatten

/-- `buildSpatialIndex` registers an image in every grid cell its bounding box
overlaps; the resulting `Map` is modelled by its lookup function.  For a cell
key, the bucket holds exactly the images (in insertion order) whose covered
cell range contains the key. -/
def cellCovers (img : PlacedImage) (cx cy : ℤ) : Prop :=
  ⌊img.x / CELL_SIZE⌋ ≤ cx ∧ cx ≤ ⌊(img.x + img.width) / CELL_SIZE⌋ ∧
    ⌊img.y / CELL_SIZE⌋ ≤ cy ∧ cy ≤ ⌊(img.y + img.height) / CELL_SIZE⌋

instance (img : PlacedImage) (cx cy : ℤ) : Decidable (cellCovers img cx cy) := by
  unfold cellCovers; infer_instance

def buildSpatialIndex (images : List PlacedImage) : ℤ → ℤ → List PlacedImage :=
  fun cx cy => images.filter (fun img => decide (cellCovers img cx cy))

/-- The inclusive integer range `[a..b]` as a list (empty when `b < a`). -/
def intRange (a b : ℤ) : List ℤ :=
  (List.range (b + 1 - a).toNat).map (fun i : ℕ => a + (i : ℤ))

abbrev Candidate := PlacedImage × ℤ × ℤ

/-- Dedup key of line 187: `(img.x, img.y, wx, wy)`. -/
def candKey (c : Candidate) : ℚ × ℚ × ℤ × ℤ := (c.1.x, c.1.y, c.2.1, c.2.2)

/-- The emitted record: the image with its world-copy translated position. -/
def candRecord (c : Candidate) : VisibleImage :=
  ⟨c.1, c.1.x + (c.2.1 : ℚ) * WORLD_SIZE, c.1.y + (c.2.2 : ℚ) * WORLD_SIZE⟩

/-- Per-candidate body of the query loops (lines 172-192): bounds check against
the viewport, then dedup by key, then emit. -/
def visitStep (vX vY vW vH : ℚ) (st : List (ℚ × ℚ × ℤ × ℤ) × List VisibleImage)
    (c : Candidate) : List (ℚ × ℚ × ℤ × ℤ) × List VisibleImage :=
  let renderX := c.1.x + (c.2.1 : ℚ) * WORLD_SIZE
  let renderY := c.1.y + (c.2.2 : ℚ) * WORLD_SIZE
  if renderX + c.1.width < vX ∨ vX + vW < renderX ∨
      renderY + c.1.height < vY ∨ vY + vH < renderY then st
  else if candKey c ∈ st.1 then st
  else (candKey c :: st.1, st.2 ++ [candRecord c])

/-- Body of the per-world-copy iteration (lines 149-194): clip the viewport
against this copy of the world square, skip the copy when the clip is empty,
then walk the grid cells of the clip (`cy` outer) and list each cell bucket. -/
def copyCands (vX vY vW vH : ℚ) (index : ℤ → ℤ → List PlacedImage) (wx wy : ℤ) :
    List Candidate :=
  let worldOffsetX : ℚ := (wx : ℚ) * WORLD_SIZE
  let worldOffsetY : ℚ := (wy : ℚ) * WORLD_SIZE
  let localMinX := max 0 (vX - worldOffsetX)
  let localMaxX := min WORLD_SIZE (vX + vW - worldOffsetX)
  let localMinY := max 0 (vY - worldOffsetY)
  let localMaxY := min WORLD_SIZE (vY + vH - worldOffsetY)
  if localMaxX ≤ localMinX ∨ localMaxY ≤ localMinY then []
  else
    (intRange ⌊localMinY / CELL_SIZE⌋ ⌊localMaxY / CELL_SIZE⌋).flatMap fun cy =>
      (intRange ⌊localMinX / CELL_SIZE⌋ ⌊localMaxX / CELL_SIZE⌋).flatMap fun cx =>
        (index cx cy).map fun img => (img, wx, wy)

/-- The nested iteration of `getVisibleImages` (lines 147-196) flattened into
the visit-ordered list of candidates: world copies (row-major, `wy` outer),
each handled by `copyCands`. -/
def queryCandidates (vX vY vW vH : ℚ) (index : ℤ → ℤ → List PlacedImage) :
    List Candidate :=
  let startWorldX := ⌊vX / WORLD_SIZE⌋
  let endWorldX := ⌊(vX + vW) / WORLD_SIZE⌋
  let startWorldY := ⌊vY / WORLD_SIZE⌋
  let endWorldY := ⌊(vY + vH) / WORLD_SIZE⌋
  (intRange startWorldY endWorldY).flatMap fun wy =>
    (intRange startWorldX endWorldX).flatMap fun wx =>
      copyCands vX vY vW vH index wx wy

/-- The query proper, over a given spatial index. -/
def getVisibleImagesCore (vX vY vW vH : ℚ) (index : ℤ → ℤ → List PlacedImage) :
    List VisibleImage :=
  ((queryCandidates vX vY vW vH index).foldl (visitStep vX vY vW vH) ([], [])).2

/-- Cache-free `getVisibleImages`: pack, build the index, query. -/
def getVisibleImagesPure (vX vY vW vH : ℚ) (allImages : List ImageMeta) :
    List VisibleImage :=
  getVisibleImagesCore vX vY vW vH (buildSpatialIndex (computeGlobalLayoutPure allImages))

/-- The module-level mutable state: `cachedLayout`, `cachedImageCount`,
`spatialIndex` (lines 8-13). -/
structure LayoutState where
  cachedLayout : Option (List PlacedImage)
  cachedImageCount : ℕ
  spatialIndex : Option (ℤ → ℤ → List PlacedImage)

def initialState : LayoutState := ⟨none, 0, none⟩

/-- `computeGlobalLayout` with its cache (lines 38-122) as an explicit
state-passing function. -/
def computeGlobalLayout (allImages : List ImageMeta) (s : LayoutState) :
    List PlacedImage × LayoutState :=
  match s.cachedLayout with
  | some cached =>
    if s.cachedImageCount = allImages.length then (cached, s)
    else
      let placedImages := computeGlobalLayoutPure allImages
      (placedImages,
        ⟨some placedImages, allImages.length, some (buildSpatialIndex placedImages)⟩)
  | none =>
    let placedImages := computeGlobalLayoutPure allImages
    (placedImages,
      ⟨some placedImages, allImages.length, some (buildSpatialIndex placedImages)⟩)

/-- `getVisibleImages` (lines 124-199) as an explicit state-passing function. -/
def getVisibleImages (vX vY vW vH : ℚ) (allImages : List ImageMeta) (s : LayoutState) :
    List VisibleImage × LayoutState :=
  let r := computeGlobalLayout allImages s
  let layout := r.1
  let s1 := r.2
  match s1.spatialIndex with
  | some index => (getVisibleImagesCore vX vY vW vH index, s1)
  | none =>
    let index := buildSpatialIndex layout
    (getVisibleImagesCore vX vY vW vH index, ⟨s1.cachedLayout, s1.cachedImageCount, some index⟩)

/-- Sample manifest with a single square image. -/
def sample1 : List ImageMeta := [⟨"cat", 1⟩]

/-- Sample manifest of the spec's concrete scenario: aspect ratios 1.5, 1, 2. -/
def sample3 : List ImageMeta := [⟨"a", 3/2⟩, ⟨"b", 1⟩, ⟨"c", 2⟩]

/-- Sample manifest of five images with aspect ratio 0 (malformed input that
drives the source through its `0/0 = NaN` path). -/
def sample0 : List ImageMeta :=
  [⟨"a", 0⟩, ⟨"b", 0⟩, ⟨"c", 0⟩, ⟨"d", 0⟩, ⟨"e", 0⟩]

/-! ### IEEE-754 value model for the layout path

The rational model above identifies `0/0` with `0`, while JavaScript yields
`NaN`.  `JsNum` refines the value domain to rationals plus `NaN` and the two
infinities, with JavaScript's arithmetic and comparison semantics (any
comparison involving `NaN` is false; `0·(±∞)` and `0/0` are `NaN`).  Negative
zero is not modelled: no operation reached by the layout code produces `-0`
from these inputs.  `buildRowsAuxF` below is `computeGlobalLayout`'s row loop
over this domain; for positive aspect ratios it agrees with the rational
model (the bridge lemma `computeGlobalLayoutF_eq`), but it keeps the source's
`NaN` behaviour on degenerate aspect-ratio sums. -/

inductive JsNum where
  | num (q : ℚ)
  | nan
  | inf
  | ninf
deriving DecidableEq, Repr

namespace JsNum

def add : JsNum → JsNum → JsNum
  | num p, num q => num (p + q)
  | nan, _ => nan
  | _, nan => nan
  | inf, ninf => nan
  | ninf, inf => nan
  | inf, _ => inf
  | _, inf => inf
  | ninf, _ => ninf
  | _, ninf => ninf

def neg : JsNum → JsNum
  | num q => num (-q)
  | nan => nan
  | inf => ninf
  | ninf => inf

def sub (a b : JsNum) : JsNum := add a (neg b)

def mul : JsNum → JsNum → JsNum
  | num p, num q => num (p * q)
  | nan, _ => nan
  | _, nan => nan
  | inf, num q => if q = 0 then nan else if 0 < q then inf else ninf
  | num p, inf => if p = 0 then nan else if 0 < p then inf else ninf
  | ninf, num q => if q = 0 then nan else if 0 < q then ninf else inf
  | num p, ninf => if p = 0 then nan else if 0 < p then ninf else inf
  | inf, inf => inf
  | inf, ninf => ninf
  | ninf, inf => ninf
  | ninf, ninf => inf

/-- JavaScript division; a zero divisor is positive zero here (the layout code
only ever divides by an exact sum, which cannot be `-0`). -/
def div : JsNum → JsNum → JsNum
  | num p, num q =>
    if q = 0 then (if p = 0 then nan else if 0 < p then inf else ninf)
    else num (p / q)
  | nan, _ => nan
  | _, nan => nan
  | num _, inf => num 0
  | num _, ninf => num 0
  | inf, num q => if 0 ≤ q then inf else ninf
  | ninf, num q => if 0 ≤ q then ninf else inf
  | inf, _ => nan
  | ninf, _ => nan

/-- JavaScript `<`: false whenever `NaN` is involved. -/
def lt : JsNum → JsNum → Bool
  | nan, _ => false
  | _, nan => false
  | num p, num q => decide (p < q)
  | num _, inf => true
  | inf, _ => false
  | ninf, num _ => true
  | ninf, inf => true
  | _, ninf => false

/-- JavaScript `<=`: false whenever `NaN` is involved. -/
def le : JsNum → JsNum → Bool
  | nan, _ => false
  | _, nan => false
  | num p, num q => decide (p ≤ q)
  | num _, inf => true
  | num _, ninf => false
  | inf, inf => true
  | inf, _ => false
  | ninf, _ => true

/-- `Math.round` on the extended domain. -/
def roundF : JsNum → JsNum
  | num q => num (jsRound q)
  | nan => nan
  | inf => inf
  | ninf => ninf

end JsNum

structure PlacedImageF where
  id : String
  x : JsNum
  y : JsNum
  width : JsNum
  height : JsNum
deriving DecidableEq, Repr

/-- Row placement (lines 91-112) over the IEEE value domain. -/
def placeRowGoF (scale currentY rowHeight : JsNum) :
    List (ImageMeta × ℚ) → JsNum → List PlacedImageF
  | [], _ => []
  | item :: rest, currentX =>
    let w : JsNum :=
      if rest = [] then
        JsNum.sub (JsNum.sub (JsNum.num WORLD_SIZE) currentX) (JsNum.num GAP)
      else JsNum.roundF (JsNum.mul (JsNum.num item.2) scale)
    ⟨item.1.id, currentX, currentY, w, rowHeight⟩ ::
      placeRowGoF scale currentY rowHeight rest
        (JsNum.add (JsNum.add currentX w) (JsNum.num GAP))

def placeRowF (rowImages : List (ImageMeta × ℚ)) (scale currentY rowHeight : JsNum) :
    List PlacedImageF :=
  placeRowGoF scale currentY rowHeight rowImages (JsNum.num 0)

/-- Outer row loop (lines 48-115) over the IEEE value domain.  The inner
row-filling loop only ever handles finite values (sums of `320·aspectRatio`
and integer gap counts), so `fillRow` is shared with the rational model. -/
def buildRowsAuxF (images : List ImageMeta) : ℕ → JsNum → ℕ → List (List PlacedImageF)
  | 0, _, _ => []
  | fuel + 1, currentY, idx =>
    if JsNum.lt currentY (JsNum.num WORLD_SIZE) then
      let fr := fillRow images idx
      let rowImages := fr.1
      let totalNaturalWidth := fr.2.1
      let idx2 := fr.2.2
      if rowImages.isEmpty then []
      else
        let numGaps : ℚ := (rowImages.length : ℚ) - 1
        let availableForImages : ℚ := WORLD_SIZE - numGaps * GAP
        let scale := JsNum.div (JsNum.num availableForImages) (JsNum.num totalNaturalWidth)
        let rowHeight0 := JsNum.roundF (JsNum.mul (JsNum.num TARGET_ROW_HEIGHT) scale)
        let remainingHeight :=
          JsNum.sub (JsNum.sub (JsNum.num WORLD_SIZE) currentY) (JsNum.num GAP)
        if JsNum.lt remainingHeight rowHeight0 && JsNum.lt remainingHeight (JsNum.num 100) then
          []
        else
          let rowHeight :=
            if JsNum.lt remainingHeight rowHeight0 then remainingHeight else rowHeight0
          placeRowF rowImages scale currentY rowHeight ::
            buildRowsAuxF images fuel
              (JsNum.add (JsNum.add currentY rowHeight) (JsNum.num GAP)) idx2
    else []

def computeGlobalLayoutRowsF (allImages : List ImageMeta) : List (List PlacedImageF) :=
  buildRowsAuxF allImages (100 * allImages.length + 1) (JsNum.num 0) 0

/-- The packed layout over the IEEE value domain. -/
def computeGlobalLayoutF (allImages : List ImageMeta) : List PlacedImageF :=
  (computeGlobalLayoutRowsF allImages).flatten

/-- Embedding of a rational-model placement into the IEEE value domain. -/
def toF (p : PlacedImage) : PlacedImageF :=
  ⟨p.id, JsNum.num p.x, JsNum.num p.y, JsNum.num p.width, JsNum.num p.height⟩

set_option maxRecDepth 100000

/-! ### Basic facts about row placement -/

lemma placeRowGo_y_height (scale currentY rowHeight : ℚ) :
    ∀ (row : List (ImageMeta × ℚ)) (currentX : ℚ),
      ∀ img ∈ placeRowGo scale currentY rowHeight row currentX,
        img.y = currentY ∧ img.height = rowHeight := by
  intro row
  induction row with
  | nil => intro currentX img h; simp [placeRowGo] at h
  | cons item rest ih =>
    intro currentX img h
    simp only [placeRowGo, List.mem_cons] at h
    rcases h with h | h
    · subst h; exact ⟨rfl, rfl⟩
    · exact ih _ img h

lemma placeRow_y_height (rowImages : List (ImageMeta × ℚ)) (scale currentY rowHeight : ℚ) :
    ∀ img ∈ placeRow rowImages scale currentY rowHeight,
      img.y = currentY ∧ img.height = rowHeight :=
  placeRowGo_y_height scale currentY rowHeight rowImages 0

lemma placeRowGo_sum (scale currentY rowHeight : ℚ) :
    ∀ (row : List (ImageMeta × ℚ)) (currentX : ℚ), row ≠ [] →
      ((placeRowGo scale currentY rowHeight row currentX).map
          (fun img => img.width)).sum + ((row.length : ℚ) - 1) * GAP =
        WORLD_SIZE - currentX - GAP := by
  intro row
  induction row with
  | nil => intro currentX h; exact absurd rfl h
  | cons item rest ih =>
    intro currentX _
    by_cases hrest : rest = []
    · subst hrest
      simp [placeRowGo]
    · have hne : rest ≠ [] := hrest
      have := ih (currentX + jsRound (item.2 * scale) + GAP) hne
      simp only [placeRowGo, if_neg hrest, List.map_cons, List.sum_cons, List.length_cons]
      push_cast
      linarith [this]

lemma placeRow_sum (rowImages : List (ImageMeta × ℚ)) (scale currentY rowHeight : ℚ)
    (h : rowImages ≠ []) :
    ((placeRow rowImages scale currentY rowHeight).map (fun img => img.width)).sum +
        ((rowImages.length : ℚ) - 1) * GAP = WORLD_SIZE - GAP := by
  have := placeRowGo_sum scale currentY rowHeight rowImages 0 h
  simpa [placeRow] using this

lemma placeRowGo_length (scale currentY rowHeight : ℚ) :
    ∀ (row : List (ImageMeta × ℚ)) (currentX : ℚ),
      (placeRowGo scale currentY rowHeight row currentX).length = row.length := by
  intro row
  induction row with
  | nil => intro currentX; simp [placeRowGo]
  | cons item rest ih => intro currentX; simp [placeRowGo, ih]

/-! ### No vertical overflow -/

lemma buildRowsAux_mem_bound (images : List ImageMeta) :
    ∀ (fuel : ℕ) (currentY : ℚ) (idx : ℕ) (row : List PlacedImage),
      row ∈ buildRowsAux images fuel currentY idx →
      ∀ img ∈ row, img.y + img.height ≤ WORLD_SIZE - GAP := by
  intro fuel
  induction fuel with
  | zero => intro y idx r hr; simp [buildRowsAux] at hr
  | succ n ih =>
    intro y idx r hr
    simp only [buildRowsAux] at hr
    split_ifs at hr with hY hempty hstop hclamp
    · simp at hr
    · simp at hr
    · rcases List.mem_cons.mp hr with hhead | htail
      · subst hhead
        intro img himg
        obtain ⟨hy, hh⟩ := placeRow_y_height _ _ _ _ img himg
        rw [hy, hh]
        linarith
      · exact ih _ _ r htail
    · rcases List.mem_cons.mp hr with hhead | htail
      · subst hhead
        intro img himg
        obtain ⟨hy, hh⟩ := placeRow_y_height _ _ _ _ img himg
        rw [hy, hh]
        have hle := le_of_not_lt hclamp
        linarith
      · exact ih _ _ r htail
    · simp at hr

/-! ### Cache behaviour and determinism -/

/-- Claim C7: the cached layout is rebuilt exactly when the cached count
differs from the input length.  A call (to either function) whose input list
has the length stored in the cache returns the stored layout unchanged —
whatever the viewport and the list contents — and a call with a different
length rebuilds from scratch. -/
theorem cachedLayout_invalidation_rule :
    ∀ (s : LayoutState) (l : List PlacedImage) (images : List ImageMeta) (vX vY vW vH : ℚ),
      s.cachedLayout = some l →
      (s.cachedImageCount = images.length →
        computeGlobalLayout images s = (l, s) ∧
        (getVisibleImages vX vY vW vH images s).2.cachedLayout = some l ∧
        (getVisibleImages vX vY vW vH images s).2.cachedImageCount = s.cachedImageCount) ∧
      (s.cachedImageCount ≠ images.length →
        (computeGlobalLayout images s).1 = computeGlobalLayoutPure images ∧
        (computeGlobalLayout images s).2.cachedLayout = some (computeGlobalLayoutPure images)) := by
  intro s l images vX vY vW vH hcl
  constructor
  · intro hlen
    refine ⟨by simp [computeGlobalLayout, hcl, hlen], ?_, ?_⟩
    · cases hsi : s.spatialIndex with
      | some index => simp [getVisibleImages, computeGlobalLayout, hcl, hlen, hsi]
      | none => simp [getVisibleImages, computeGlobalLayout, hcl, hlen, hsi]
    · cases hsi : s.spatialIndex with
      | some index => simp [getVisibleImages, computeGlobalLayout, hcl, hlen, hsi]
      | none => simp [getVisibleImages, computeGlobalLayout, hcl, hlen, hsi]
  · intro hlen
    exact ⟨by simp [computeGlobalLayout, hcl, hlen], by simp [computeGlobalLayout, hcl, hlen]⟩

/-- Witness for C7: a warm cache of matching count is returned untouched (even
though it differs from the layout the current list would produce). -/
theorem cachedLayout_invalidation_rule_witness :
    computeGlobalLayout sample1 ⟨some [⟨"z", 1, 2, 3, 4⟩], 1, none⟩ =
      ([⟨"z", 1, 2, 3, 4⟩], ⟨some [⟨"z", 1, 2, 3, 4⟩], 1, none⟩) :=
  ((cachedLayout_invalidation_rule ⟨some [⟨"z", 1, 2, 3, 4⟩], 1, none⟩
    [⟨"z", 1, 2, 3, 4⟩] sample1 0 0 0 0 rfl).1 (by decide)).1

/-- Claim C8: `computeGlobalLayout` is deterministic — an immediate second call
with the identical input list returns the identical output list (whatever the
prior cache state), and from the initial state the result is the pure function
of the list alone (the model has no clock or randomness inputs at all). -/
theorem computeGlobalLayout_deterministic :
    ∀ (s : LayoutState) (images : List ImageMeta),
      (computeGlobalLayout images ((computeGlobalLayout images s).2)).1 =
        (computeGlobalLayout images s).1 ∧
      (computeGlobalLayout images initialState).1 = computeGlobalLayoutPure images := by
  intro s images
  constructor
  · cases hcl : s.cachedLayout with
    | none => simp [computeGlobalLayout, hcl]
    | some l =>
      by_cases hlen : s.cachedImageCount = images.length
      · simp [computeGlobalLayout, hcl, hlen]
      · simp [computeGlobalLayout, hcl, hlen]
  · simp [computeGlobalLayout, initialState]

/-! ### Malformed input is not rejected -/

/-- Counterexample for C6: on a list whose only aspect ratio is negative the
packer does not fail; it silently returns a 100-image degenerate layout. -/
theorem malformed_input_no_failure_counterexample :
    computeGlobalLayoutPure [⟨"neg", -1⟩] ≠ [] ∧
      (computeGlobalLayoutPure [⟨"neg", -1⟩]).length = 100 := by decide

/-- Amended C6: the implementation validates nothing.  An empty list yields an
empty layout (and an empty query result), and a non-positive aspect ratio
yields a silently degenerate layout — here every placed image has height -90. -/
theorem malformed_input_returns_silently :
    computeGlobalLayoutPure [] = [] ∧
      getVisibleImagesPure 0 0 100 100 [] = [] ∧
      (∀ img ∈ computeGlobalLayoutPure [⟨"neg", -1⟩], img.height = -90) ∧
      computeGlobalLayoutPure [⟨"neg", -1⟩] ≠ [] := by decide

/-! ### Facts about the row-filling loop -/

lemma fillRowAux_accounting (images : List ImageMeta) :
    ∀ (fuel idx : ℕ) (row : List (ImageMeta × ℚ)) (total : ℚ),
      ∃ added,
        (fillRowAux images fuel idx row total).1 = row ++ added ∧
        (fillRowAux images fuel idx row total).2.2 = idx + added.length ∧
        added.length ≤ fuel := by
  intro fuel
  induction fuel with
  | zero => intro idx row total; exact ⟨[], by simp [fillRowAux]⟩
  | succ n ih =>
    intro idx row total
    simp only [fillRowAux]
    split_ifs with hbreak
    · exact ⟨[], by simp⟩
    · obtain ⟨added, h1, h2, h3⟩ := ih (idx + 1)
        (row ++ [(images.getD (idx % images.length) default,
          TARGET_ROW_HEIGHT * (images.getD (idx % images.length) default).aspectRatio)])
        (total + TARGET_ROW_HEIGHT * (images.getD (idx % images.length) default).aspectRatio)
      refine ⟨(images.getD (idx % images.length) default,
          TARGET_ROW_HEIGHT * (images.getD (idx % images.length) default).aspectRatio) :: added,
        ?_, ?_, ?_⟩
      · simpa using h1
      · simp only [List.length_cons]
        rw [h2]
        omega
      · simp only [List.length_cons]; omega

/-- The strengthened row invariant: members come from the image list with
their natural widths, the running total is the sum of natural widths, and a
row that has at least three images obeyed the overflow test when its last
image was admitted. -/
def RowInv (images : List ImageMeta) (row : List (ImageMeta × ℚ)) (total : ℚ) : Prop :=
  (∀ p ∈ row, p.1 ∈ images ∧ p.2 = TARGET_ROW_HEIGHT * p.1.aspectRatio) ∧
    total = (row.map (fun p => p.2)).sum ∧
    (3 ≤ row.length → total + ((row.length : ℚ) - 1) * GAP ≤ WORLD_SIZE)

lemma fillRowAux_inv (images : List ImageMeta) (hne : images ≠ []) :
    ∀ (fuel idx : ℕ) (row : List (ImageMeta × ℚ)) (total : ℚ),
      RowInv images row total →
      RowInv images (fillRowAux images fuel idx row total).1
        (fillRowAux images fuel idx row total).2.1 := by
  intro fuel
  induction fuel with
  | zero => intro idx row total h; simpa [fillRowAux] using h
  | succ n ih =>
    intro idx row total h
    simp only [fillRowAux]
    split_ifs with hbreak
    · exact h
    · set img := images.getD (idx % images.length) default with himg
      apply ih
      obtain ⟨hmem, htot, hbound⟩ := h
      refine ⟨?_, ?_, ?_⟩
      · intro p hp
        rcases List.mem_append.mp hp with hp | hp
        · exact hmem p hp
        · have hlt : idx % images.length < images.length :=
            Nat.mod_lt _ (List.length_pos.mpr hne)
          have heq : images.getD (idx % images.length) default =
              images[idx % images.length] := by
            simp [List.getD_eq_getElem?_getD, List.getElem?_eq_getElem hlt]
          simp only [List.mem_singleton] at hp
          subst hp
          exact ⟨by rw [himg, heq]; exact List.getElem_mem hlt, rfl⟩
      · simp [htot]
      · intro hlen
        simp only [List.length_append, List.length_cons, List.length_nil] at hlen ⊢
        have hlen' : 2 ≤ row.length := by omega
        have hnobreak : ¬(WORLD_SIZE <
            total + TARGET_ROW_HEIGHT * img.aspectRatio + (row.length : ℚ) * GAP) := by
          intro hcon
          exact hbreak ⟨hcon, hlen'⟩
        push_neg at hnobreak
        push_cast
        linarith [hnobreak]

lemma fillRow_inv (images : List ImageMeta) (hne : images ≠ []) (idx : ℕ) :
    RowInv images (fillRow images idx).1 (fillRow images idx).2.1 := by
  apply fillRowAux_inv images hne
  refine ⟨by simp, by simp, ?_⟩
  intro h
  simp at h

lemma fillRow_pos (images : List ImageMeta) (hne : images ≠ [])
    (hpos : ∀ a ∈ images, 0 < a.aspectRatio) (idx : ℕ)
    (hrow : (fillRow images idx).1 ≠ []) :
    (∀ p ∈ (fillRow images idx).1, 0 < p.2) ∧
      0 < (fillRow images idx).2.1 ∧
      0 < WORLD_SIZE - (((fillRow images idx).1.length : ℚ) - 1) * GAP := by
  obtain ⟨hmem, htot, hbound⟩ := fillRow_inv images hne idx
  have hp : ∀ p ∈ (fillRow images idx).1, 0 < p.2 := by
    intro p hp
    obtain ⟨hin, heq⟩ := hmem p hp
    rw [heq]
    have ha := hpos p.1 hin
    have : (0 : ℚ) < TARGET_ROW_HEIGHT := by norm_num
    exact mul_pos this ha
  refine ⟨hp, ?_, ?_⟩
  · rw [htot]
    apply List.sum_pos
    · intro x hx
      obtain ⟨p, hp', hpx⟩ := List.mem_map.mp hx
      rw [← hpx]
      exact hp p hp'
    · simpa using hrow
  · by_cases h3 : 3 ≤ (fillRow images idx).1.length
    · have hb := hbound h3
      have htotpos : 0 < (fillRow images idx).2.1 := by
        rw [htot]
        apply List.sum_pos
        · intro x hx
          obtain ⟨p, hp', hpx⟩ := List.mem_map.mp hx
          rw [← hpx]
          exact hp p hp'
        · simpa using hrow
      linarith
    · push_neg at h3
      have h1 : 1 ≤ (fillRow images idx).1.length := List.length_pos.mpr hrow
      have hle : ((fillRow images idx).1.length : ℚ) ≤ 2 := by exact_mod_cast Nat.lt_succ_iff.mp h3
      have hge : (1 : ℚ) ≤ ((fillRow images idx).1.length : ℚ) := by exact_mod_cast h1
      have hmul : (((fillRow images idx).1.length : ℚ) - 1) * GAP ≤ 1 * GAP :=
        mul_le_mul_of_nonneg_right (by linarith) (by norm_num)
      have hWG : (GAP : ℚ) < WORLD_SIZE := by norm_num
      linarith

lemma jsRound_nonneg (q : ℚ) (h : 0 ≤ q) : 0 ≤ jsRound q := by
  unfold jsRound
  have h2 : (0 : ℤ) ≤ ⌊q + 1/2⌋ := Int.le_floor.mpr (by push_cast; linarith)
  exact_mod_cast h2

/-! ### Bridging the IEEE model and the rational model -/

@[simp] lemma JsNum.add_num (a b : ℚ) :
    JsNum.add (JsNum.num a) (JsNum.num b) = JsNum.num (a + b) := rfl

@[simp] lemma JsNum.sub_num (a b : ℚ) :
    JsNum.sub (JsNum.num a) (JsNum.num b) = JsNum.num (a - b) := by
  show JsNum.num (a + -b) = JsNum.num (a - b)
  rw [← sub_eq_add_neg]

@[simp] lemma JsNum.mul_num (a b : ℚ) :
    JsNum.mul (JsNum.num a) (JsNum.num b) = JsNum.num (a * b) := rfl

@[simp] lemma JsNum.roundF_num (a : ℚ) :
    JsNum.roundF (JsNum.num a) = JsNum.num (jsRound a) := rfl

@[simp] lemma JsNum.lt_num (a b : ℚ) :
    JsNum.lt (JsNum.num a) (JsNum.num b) = decide (a < b) := rfl

@[simp] lemma JsNum.le_num (a b : ℚ) :
    JsNum.le (JsNum.num a) (JsNum.num b) = decide (a ≤ b) := rfl

lemma JsNum.div_num (a b : ℚ) (hb : b ≠ 0) :
    JsNum.div (JsNum.num a) (JsNum.num b) = JsNum.num (a / b) := by
  simp [JsNum.div, hb]

lemma placeRowGoF_eq (scale currentY rowHeight : ℚ) :
    ∀ (row : List (ImageMeta × ℚ)) (currentX : ℚ),
      placeRowGoF (JsNum.num scale) (JsNum.num currentY) (JsNum.num rowHeight) row
          (JsNum.num currentX) =
        (placeRowGo scale currentY rowHeight row currentX).map toF := by
  intro row
  induction row with
  | nil => intro cx; rfl
  | cons item rest ih =>
    intro cx
    by_cases hrest : rest = []
    · subst hrest
      simp [placeRowGoF, placeRowGo, toF]
    · simp only [placeRowGoF, placeRowGo, if_neg hrest, List.map_cons]
      have hw : JsNum.roundF (JsNum.mul (JsNum.num item.2) (JsNum.num scale)) =
          JsNum.num (jsRound (item.2 * scale)) := rfl
      rw [hw]
      have hx : JsNum.add (JsNum.add (JsNum.num cx) (JsNum.num (jsRound (item.2 * scale))))
          (JsNum.num GAP) = JsNum.num (cx + jsRound (item.2 * scale) + GAP) := rfl
      rw [hx, ih]
      rfl

lemma placeRowF_eq (rowImages : List (ImageMeta × ℚ)) (scale currentY rowHeight : ℚ) :
    placeRowF rowImages (JsNum.num scale) (JsNum.num currentY) (JsNum.num rowHeight) =
      (placeRow rowImages scale currentY rowHeight).map toF :=
  placeRowGoF_eq scale currentY rowHeight rowImages 0

/-- On non-empty input with positive aspect ratios every row's natural-width
sum is positive, so the division never hits the `0/0` (`NaN`) path and the
IEEE-domain loop computes exactly the rational-model layout. -/
lemma buildRowsAuxF_eq (images : List ImageMeta) (hne : images ≠ [])
    (hpos : ∀ a ∈ images, 0 < a.aspectRatio) :
    ∀ (fuel : ℕ) (y : ℚ) (idx : ℕ),
      buildRowsAuxF images fuel (JsNum.num y) idx =
        (buildRowsAux images fuel y idx).map (List.map toF) := by
  intro fuel
  induction fuel with
  | zero => intro y idx; rfl
  | succ n ih =>
    intro y idx
    by_cases hY : y < WORLD_SIZE
    · by_cases hempty : (fillRow images idx).1.isEmpty
      · simp [buildRowsAuxF, buildRowsAux, hY, hempty]
      · have hrow : (fillRow images idx).1 ≠ [] := by
          simpa [List.isEmpty_iff] using hempty
        obtain ⟨_, htot, _⟩ := fillRow_pos images hne hpos idx hrow
        have hdiv : JsNum.div
            (JsNum.num (WORLD_SIZE - (((fillRow images idx).1.length : ℚ) - 1) * GAP))
            (JsNum.num (fillRow images idx).2.1) =
            JsNum.num ((WORLD_SIZE - (((fillRow images idx).1.length : ℚ) - 1) * GAP) /
              (fillRow images idx).2.1) :=
          JsNum.div_num _ _ (ne_of_gt htot)
        by_cases h1 : WORLD_SIZE - y - GAP < jsRound (TARGET_ROW_HEIGHT *
            ((WORLD_SIZE - (((fillRow images idx).1.length : ℚ) - 1) * GAP) /
              (fillRow images idx).2.1))
        · by_cases h2 : WORLD_SIZE - y - GAP < (100 : ℚ)
          · simp [buildRowsAuxF, buildRowsAux, hY, hempty, hdiv, h1, h2]
          · simp [buildRowsAuxF, buildRowsAux, hY, hempty, hdiv, h1, h2,
              placeRowF_eq, ih]
        · simp [buildRowsAuxF, buildRowsAux, hY, hempty, hdiv, h1,
            placeRowF_eq, ih]
    · simp [buildRowsAuxF, buildRowsAux, hY]

lemma computeGlobalLayoutF_eq (images : List ImageMeta) (hne : images ≠ [])
    (hpos : ∀ a ∈ images, 0 < a.aspectRatio) :
    computeGlobalLayoutF images = (computeGlobalLayoutPure images).map toF := by
  unfold computeGlobalLayoutF computeGlobalLayoutRowsF computeGlobalLayoutPure
    computeGlobalLayoutRows
  rw [buildRowsAuxF_eq images hne hpos, List.map_flatten]

/-- Counterexample for C3 as stated: on five images of aspect ratio 0 the
source computes `scale = 0/0 = NaN`, the clamp test `NaN > remainingHeight`
is false, and a row of 401 images is placed with height `NaN`; for such an
image `y + height <= WORLD_SIZE` evaluates to false. -/
theorem computeGlobalLayout_no_vertical_overflow_counterexample :
    ∃ img ∈ computeGlobalLayoutF sample0,
      JsNum.le (JsNum.add img.y img.height) (JsNum.num WORLD_SIZE) = false := by
  decide

/-- Amended C3: for every non-empty input list with positive aspect ratios
(the packer's documented precondition, under which no `NaN` can arise), every
placed image satisfies `y + height ≤ WORLD_SIZE` in JavaScript's comparison
semantics. -/
theorem computeGlobalLayout_no_vertical_overflow :
    ∀ (images : List ImageMeta), images ≠ [] → (∀ a ∈ images, 0 < a.aspectRatio) →
      ∀ img ∈ computeGlobalLayoutF images,
        JsNum.le (JsNum.add img.y img.height) (JsNum.num WORLD_SIZE) = true := by
  intro images hne hpos img h
  rw [computeGlobalLayoutF_eq images hne hpos] at h
  obtain ⟨p, hp, rfl⟩ := List.mem_map.mp h
  rw [computeGlobalLayoutPure, List.mem_flatten] at hp
  obtain ⟨r, hr, hi⟩ := hp
  have h1 := buildRowsAux_mem_bound images _ _ _ r hr p hi
  have h2 : (0 : ℚ) ≤ GAP := by norm_num
  have h3 : p.y + p.height ≤ WORLD_SIZE := by linarith
  show JsNum.le (JsNum.add (JsNum.num p.y) (JsNum.num p.height)) (JsNum.num WORLD_SIZE) = true
  rw [JsNum.add_num, JsNum.le_num]
  exact decide_eq_true h3

/-- Witness for the amended C3 at a concrete input. -/
theorem computeGlobalLayout_no_vertical_overflow_witness :
    (⟨"cat", JsNum.num 0, JsNum.num 0, JsNum.num 324, JsNum.num 324⟩ : PlacedImageF) ∈
        computeGlobalLayoutF sample1 ∧
      JsNum.le (JsNum.add (JsNum.num 0) (JsNum.num 324)) (JsNum.num WORLD_SIZE) = true :=
  ⟨by decide, computeGlobalLayout_no_vertical_overflow sample1 (by decide) (by decide)
    ⟨"cat", JsNum.num 0, JsNum.num 0, JsNum.num 324, JsNum.num 324⟩ (by decide)⟩

lemma placeRowGo_x_lower (scale currentY rowHeight : ℚ) (hs : 0 ≤ scale) :
    ∀ (row : List (ImageMeta × ℚ)), (∀ p ∈ row, 0 ≤ p.2) →
      ∀ (currentX : ℚ), ∀ img ∈ placeRowGo scale currentY rowHeight row currentX,
        currentX ≤ img.x := by
  intro row
  induction row with
  | nil => intro _ currentX img h; simp [placeRowGo] at h
  | cons item rest ih =>
    intro hp currentX img hmem
    simp only [placeRowGo, List.mem_cons] at hmem
    rcases hmem with h | h
    · subst h; exact le_refl _
    · by_cases hrest : rest = []
      · subst hrest; simp [placeRowGo] at h
      · rw [if_neg hrest] at h
        have hw : 0 ≤ jsRound (item.2 * scale) :=
          jsRound_nonneg _ (mul_nonneg (hp item (by simp)) hs)
        have := ih (fun p hp' => hp p (List.mem_cons_of_mem _ hp'))
          (currentX + jsRound (item.2 * scale) + GAP) img h
        have hGAP : (0 : ℚ) ≤ GAP := by norm_num
        linarith

lemma placeRowGo_pairwise_sep (scale currentY rowHeight : ℚ) (hs : 0 ≤ scale) :
    ∀ (row : List (ImageMeta × ℚ)), (∀ p ∈ row, 0 ≤ p.2) →
      ∀ (currentX : ℚ),
        List.Pairwise (fun a b => a.x + a.width + GAP ≤ b.x)
          (placeRowGo scale currentY rowHeight row currentX) := by
  intro row
  induction row with
  | nil => intro _ currentX; simp [placeRowGo]
  | cons item rest ih =>
    intro hp currentX
    simp only [placeRowGo]
    refine List.Pairwise.cons ?_ (ih (fun p hp' => hp p (List.mem_cons_of_mem _ hp')) _)
    intro b hb
    have := placeRowGo_x_lower scale currentY rowHeight hs rest
      (fun p hp' => hp p (List.mem_cons_of_mem _ hp')) _ b hb
    simp only
    linarith

/-! ### Structure of the produced rows -/

/-- Well-formedness of one produced row: non-empty, constant `y` and height
with the height non-negative, edge-exact width sum, and left-to-right
separation by at least the gap. -/
def RowOK (r : List PlacedImage) : Prop :=
  r ≠ [] ∧
    (∃ yr rh, 0 ≤ rh ∧ ∀ img ∈ r, img.y = yr ∧ img.height = rh) ∧
    ((r.map (fun img => img.width)).sum + ((r.length : ℚ) - 1) * GAP = WORLD_SIZE - GAP) ∧
    List.Pairwise (fun a b => a.x + a.width + GAP ≤ b.x) r

/-- Well-formedness of the row list produced from vertical cursor `y`. -/
def RowsOK (rows : List (List PlacedImage)) (y : ℚ) : Prop :=
  (∀ r ∈ rows, RowOK r) ∧
    (∀ r ∈ rows, ∀ img ∈ r, y ≤ img.y) ∧
    List.Chain' (fun r1 r2 => ∀ a ∈ r1, ∀ b ∈ r2,
      a.y + a.height + GAP ≤ b.y ∧ a.y < b.y ∧ a.y + GAP ≤ b.y) rows

lemma placeRow_length (rowImages : List (ImageMeta × ℚ)) (scale currentY rowHeight : ℚ) :
    (placeRow rowImages scale currentY rowHeight).length = rowImages.length :=
  placeRowGo_length scale currentY rowHeight rowImages 0

lemma rowsOK_cons_step (images : List ImageMeta) (y rh : ℚ) (idx : ℕ)
    (hrow : (fillRow images idx).1 ≠ [])
    (hs : 0 ≤ (WORLD_SIZE - (((fillRow images idx).1.length : ℚ) - 1) * GAP) /
        (fillRow images idx).2.1)
    (hnat : ∀ p ∈ (fillRow images idx).1, 0 ≤ p.2)
    (hrh : 0 ≤ rh)
    (tail : List (List PlacedImage))
    (htail : RowsOK tail (y + rh + GAP)) :
    RowsOK (placeRow (fillRow images idx).1
        ((WORLD_SIZE - (((fillRow images idx).1.length : ℚ) - 1) * GAP) /
          (fillRow images idx).2.1) y rh :: tail) y := by
  obtain ⟨htOK, htLB, htCh⟩ := htail
  have hyh := placeRow_y_height (fillRow images idx).1
    ((WORLD_SIZE - (((fillRow images idx).1.length : ℚ) - 1) * GAP) /
      (fillRow images idx).2.1) y rh
  have hlen := placeRow_length (fillRow images idx).1
    ((WORLD_SIZE - (((fillRow images idx).1.length : ℚ) - 1) * GAP) /
      (fillRow images idx).2.1) y rh
  have hGAP : (0 : ℚ) < GAP := by norm_num
  refine ⟨?_, ?_, ?_⟩
  · intro r hr
    rcases List.mem_cons.mp hr with h | h
    · subst h
      refine ⟨?_, ⟨y, rh, hrh, hyh⟩, ?_, ?_⟩
      · apply List.length_pos.mp
        rw [hlen]
        exact List.length_pos.mpr hrow
      · rw [hlen]
        exact placeRow_sum (fillRow images idx).1 _ y rh hrow
      · exact placeRowGo_pairwise_sep _ y rh hs _ hnat 0
    · exact htOK r h
  · intro r hr img himg
    rcases List.mem_cons.mp hr with h | h
    · subst h
      rw [(hyh img himg).1]
    · have := htLB r h img himg
      linarith
  · apply List.chain'_cons'.mpr
    refine ⟨?_, htCh⟩
    intro r2 hr2 a ha b hb
    have h2 := htLB r2 (List.mem_of_mem_head? hr2) b hb
    obtain ⟨hay, hah⟩ := hyh a ha
    refine ⟨?_, ?_, ?_⟩
    · rw [hay, hah]; exact h2
    · rw [hay]; linarith
    · rw [hay]; linarith

lemma buildRowsAux_rowsOK (images : List ImageMeta) (hne : images ≠ [])
    (hpos : ∀ a ∈ images, 0 < a.aspectRatio) :
    ∀ (fuel : ℕ) (y : ℚ) (idx : ℕ), RowsOK (buildRowsAux images fuel y idx) y := by
  intro fuel
  induction fuel with
  | zero =>
    intro y idx
    exact ⟨by simp [buildRowsAux], by simp [buildRowsAux], by simp [buildRowsAux]⟩
  | succ n ih =>
    intro y idx
    simp only [buildRowsAux]
    split_ifs with hY hempty hstop hclamp
    · exact ⟨by simp, by simp, by simp⟩
    · exact ⟨by simp, by simp, by simp⟩
    · have hrow : (fillRow images idx).1 ≠ [] := by
        simpa [List.isEmpty_iff] using hempty
      obtain ⟨hp2, htotpos, havail⟩ := fillRow_pos images hne hpos idx hrow
      have hs : 0 ≤ (WORLD_SIZE - (((fillRow images idx).1.length : ℚ) - 1) * GAP) /
          (fillRow images idx).2.1 := le_of_lt (div_pos havail htotpos)
      have hnat : ∀ p ∈ (fillRow images idx).1, 0 ≤ p.2 := fun p hp => le_of_lt (hp2 p hp)
      have hrh : (0 : ℚ) ≤ WORLD_SIZE - y - GAP := by
        rcases not_and_or.mp hstop with hcon | hcon
        · exact absurd hclamp hcon
        · push_neg at hcon; linarith
      exact rowsOK_cons_step images y _ idx hrow hs hnat hrh _ (ih _ _)
    · have hrow : (fillRow images idx).1 ≠ [] := by
        simpa [List.isEmpty_iff] using hempty
      obtain ⟨hp2, htotpos, havail⟩ := fillRow_pos images hne hpos idx hrow
      have hs : 0 ≤ (WORLD_SIZE - (((fillRow images idx).1.length : ℚ) - 1) * GAP) /
          (fillRow images idx).2.1 := le_of_lt (div_pos havail htotpos)
      have hnat : ∀ p ∈ (fillRow images idx).1, 0 ≤ p.2 := fun p hp => le_of_lt (hp2 p hp)
      have hrh : (0 : ℚ) ≤ jsRound (TARGET_ROW_HEIGHT *
          ((WORLD_SIZE - (((fillRow images idx).1.length : ℚ) - 1) * GAP) /
            (fillRow images idx).2.1)) :=
        jsRound_nonneg _ (mul_nonneg (by norm_num) hs)
      exact rowsOK_cons_step images y _ idx hrow hs hnat hrh _ (ih _ _)
    · exact ⟨by simp, by simp, by simp⟩

/-! ### Rows of the flat output as maximal groups of equal `y` -/

/-- Maximal groups of consecutive placed images sharing the same `y`. -/
def chunkByY : List PlacedImage → List (List PlacedImage)
  | [] => []
  | a :: rest =>
    match chunkByY rest with
    | (b :: t) :: rs => if a.y = b.y then (a :: b :: t) :: rs else [a] :: (b :: t) :: rs
    | cs => [a] :: cs

lemma chunkByY_cons_head (a : PlacedImage) (l : List PlacedImage) :
    ∃ t rs, chunkByY (a :: l) = (a :: t) :: rs := by
  rcases h : chunkByY l with _ | ⟨c, cs⟩
  · exact ⟨[], [], by simp [chunkByY, h]⟩
  · rcases c with _ | ⟨b, t⟩
    · exact ⟨[], [] :: cs, by simp [chunkByY, h]⟩
    · by_cases hy : a.y = b.y
      · exact ⟨b :: t, cs, by simp [chunkByY, h, hy]⟩
      · exact ⟨[], (b :: t) :: cs, by simp [chunkByY, h, hy]⟩

lemma chunkByY_append (y0 : ℚ) :
    ∀ (r l : List PlacedImage), r ≠ [] → (∀ img ∈ r, img.y = y0) →
      (∀ b ∈ l.head?, b.y ≠ y0) →
      chunkByY (r ++ l) = r :: chunkByY l := by
  intro r
  induction r with
  | nil => intro l h; exact absurd rfl h
  | cons a r' ih =>
    intro l _ hall hl
    by_cases hr' : r' = []
    · subst hr'
      cases l with
      | nil => simp [chunkByY]
      | cons b l' =>
        obtain ⟨t, rs, hbt⟩ := chunkByY_cons_head b l'
        have hb : b.y ≠ y0 := hl b (by simp)
        have ha : a.y = y0 := hall a (by simp)
        have hne2 : a.y ≠ b.y := by rw [ha]; exact fun hcon => hb hcon.symm
        simp only [List.singleton_append]
        conv_lhs => rw [chunkByY]
        rw [hbt]
        simp [hne2]
    · have ih' := ih l hr' (fun img h => hall img (List.mem_cons_of_mem _ h)) hl
      obtain ⟨c, r'', rfl⟩ : ∃ c r'', r' = c :: r'' := by
        cases r' with
        | nil => exact absurd rfl hr'
        | cons c r'' => exact ⟨c, r'', rfl⟩
      have hac : a.y = c.y := by
        rw [hall a (by simp), hall c (by simp)]
      rw [List.cons_append]
      conv_lhs => rw [chunkByY]
      rw [ih']
      simp [hac]

lemma chunkByY_flatten :
    ∀ (rows : List (List PlacedImage)),
      (∀ r ∈ rows, r ≠ []) →
      (∀ r ∈ rows, ∃ yr, ∀ img ∈ r, img.y = yr) →
      List.Chain' (fun r1 r2 => ∀ a ∈ r1, ∀ b ∈ r2, a.y < b.y) rows →
      chunkByY rows.flatten = rows := by
  intro rows
  induction rows with
  | nil => intro _ _ _; simp [chunkByY]
  | cons r rs ih =>
    intro hne hconst hch
    obtain ⟨y0, hy0⟩ := hconst r (by simp)
    have hr : r ≠ [] := hne r (by simp)
    rw [List.flatten_cons]
    rw [chunkByY_append y0 r rs.flatten hr hy0 ?hd]
    · congr 1
      exact ih (fun r' h => hne r' (List.mem_cons_of_mem _ h))
        (fun r' h => hconst r' (List.mem_cons_of_mem _ h))
        ((List.chain'_cons'.mp hch).2)
    case hd =>
      intro b hb
      cases rs with
      | nil => simp at hb
      | cons r2 rs' =>
        have hr2 : r2 ≠ [] := hne r2 (by simp)
        have hb2 : b ∈ r2 := by
          rcases r2 with _ | ⟨x, r2'⟩
          · exact absurd rfl hr2
          · simp only [List.flatten_cons, List.cons_append, List.head?_cons,
              Option.mem_def, Option.some.injEq] at hb
            rw [← hb]
            simp
        have hrel := (List.chain'_cons.mp hch).1
        obtain ⟨a, haa⟩ := List.exists_mem_of_ne_nil r hr
        have hlt := hrel a haa b hb2
        rw [hy0 a haa] at hlt
        exact ne_of_gt hlt

/-- For positive aspect ratios the maximal equal-`y` groups of the flat layout
are exactly the rows the packer produced. -/
lemma chunk_eq_rows (images : List ImageMeta) (hne : images ≠ [])
    (hpos : ∀ a ∈ images, 0 < a.aspectRatio) :
    chunkByY (computeGlobalLayoutPure images) = computeGlobalLayoutRows images := by
  obtain ⟨hOK, hLB, hCh⟩ := buildRowsAux_rowsOK images hne hpos (100 * images.length + 1) 0 0
  apply chunkByY_flatten
  · intro r h; exact (hOK r h).1
  · intro r h
    obtain ⟨yr, rh, _, hc⟩ := (hOK r h).2.1
    exact ⟨yr, fun img hi => (hc img hi).1⟩
  · exact hCh.imp (fun r1 r2 h a ha b hb => (h a ha b hb).2.1)

/-! ### Row width sums (edge-exact tiling) -/

/-- Counterexample for C2 as stated: in the packing of a single square image
the first row's widths plus inter-image gaps sum to 11970, not `WORLD_SIZE`:
one `GAP` is reserved at the right edge for the world wrap. -/
theorem row_width_sum_counterexample :
    ∃ row ∈ chunkByY (computeGlobalLayoutPure sample1),
      (row.map (fun img => img.width)).sum + ((row.length : ℚ) - 1) * GAP ≠ WORLD_SIZE := by
  decide

/-- Amended C2: for every non-empty input with positive aspect ratios, every
row (maximal group of consecutive placed images of equal `y`) satisfies
`sum(widths) + (count-1)*GAP = WORLD_SIZE - GAP` — the trailing gap before the
wrapped next world copy is reserved in addition to the inter-image gaps. -/
theorem row_width_sum_exact :
    ∀ (images : List ImageMeta), images ≠ [] → (∀ a ∈ images, 0 < a.aspectRatio) →
      ∀ row ∈ chunkByY (computeGlobalLayoutPure images),
        (row.map (fun img => img.width)).sum + ((row.length : ℚ) - 1) * GAP =
          WORLD_SIZE - GAP := by
  intro images hne hpos row hrow
  rw [chunk_eq_rows images hne hpos] at hrow
  obtain ⟨hOK, hLB, hCh⟩ := buildRowsAux_rowsOK images hne hpos (100 * images.length + 1) 0 0
  exact (hOK row hrow).2.2.1

/-- Witness for the amended C2 at the single-image manifest: its first row. -/
theorem row_width_sum_exact_witness :
    (((chunkByY (computeGlobalLayoutPure sample1)).headD []).map (fun img => img.width)).sum +
        ((((chunkByY (computeGlobalLayoutPure sample1)).headD []).length : ℚ) - 1) * GAP =
      WORLD_SIZE - GAP :=
  row_width_sum_exact sample1 (by decide) (by decide) _ (by decide)

/-! ### No overlap within a row; consecutive rows do not overlap -/

/-- Two placed rectangles overlap with positive area. -/
def rectanglesOverlap (a b : PlacedImage) : Prop :=
  a.x < b.x + b.width ∧ b.x < a.x + a.width ∧ a.y < b.y + b.height ∧ b.y < a.y + a.height

/-- Claim C5: for non-empty input with positive aspect ratios, no two images
of the same row overlap with positive area, and consecutive rows do not
overlap vertically (every image of the next row starts at or below
`y + height` of every image of the previous row). -/
theorem rows_no_overlap :
    ∀ (images : List ImageMeta), images ≠ [] → (∀ a ∈ images, 0 < a.aspectRatio) →
      (∀ row ∈ chunkByY (computeGlobalLayoutPure images),
        List.Pairwise (fun a b => ¬ rectanglesOverlap a b) row) ∧
      List.Chain' (fun r1 r2 => ∀ a ∈ r1, ∀ b ∈ r2, a.y + a.height ≤ b.y)
        (chunkByY (computeGlobalLayoutPure images)) := by
  intro images hne hpos
  rw [chunk_eq_rows images hne hpos]
  obtain ⟨hOK, hLB, hCh⟩ := buildRowsAux_rowsOK images hne hpos (100 * images.length + 1) 0 0
  constructor
  · intro row hrow
    have hsep := (hOK row hrow).2.2.2
    apply hsep.imp
    intro a b hab hov
    have hGAP : (0 : ℚ) < GAP := by norm_num
    have := hov.2.1
    linarith
  · refine hCh.imp ?_
    intro r1 r2 h a ha b hb
    have h1 := (h a ha b hb).1
    have hGAP : (0 : ℚ) < GAP := by norm_num
    linarith

/-- Witness for C5: the first row of the single-image packing is pairwise
non-overlapping. -/
theorem rows_no_overlap_witness :
    List.Pairwise (fun a b => ¬ rectanglesOverlap a b)
      ((chunkByY (computeGlobalLayoutPure sample1)).headD []) :=
  (rows_no_overlap sample1 (by decide) (by decide)).1 _ (by decide)

/-! ### Termination of the packer -/

lemma fillRow_accounting (images : List ImageMeta) (idx : ℕ) :
    ∃ added,
      (fillRow images idx).1 = added ∧
      (fillRow images idx).2.2 = idx + added.length ∧
      added.length ≤ 100 * images.length - idx := by
  obtain ⟨added, h1, h2, h3⟩ :=
    fillRowAux_accounting images (100 * images.length - idx) idx [] 0
  exact ⟨added, by simpa [fillRow] using h1, by simpa [fillRow] using h2, h3⟩

/-- Running the outer loop with any fuel beyond the shared cursor budget gives
the same row list: the loop stabilises after at most `100·length + 1`
iterations. -/
lemma buildRowsAux_stable (images : List ImageMeta) :
    ∀ (f1 f2 : ℕ) (y : ℚ) (idx : ℕ),
      100 * images.length - idx < f1 → 100 * images.length - idx < f2 →
      buildRowsAux images f1 y idx = buildRowsAux images f2 y idx := by
  intro f1
  induction f1 with
  | zero => intro f2 y idx h1 _; exact absurd h1 (Nat.not_lt_zero _)
  | succ n ih =>
    intro f2 y idx h1 h2
    cases f2 with
    | zero => exact absurd h2 (Nat.not_lt_zero _)
    | succ m =>
      simp only [buildRowsAux]
      split_ifs with hY hempty hstop hclamp
      · rfl
      · rfl
      · obtain ⟨added, ha1, ha2, ha3⟩ := fillRow_accounting images idx
        have haddne : added ≠ [] := by
          intro hcon
          rw [hcon] at ha1
          exact (by simpa [List.isEmpty_iff] using hempty : (fillRow images idx).1 ≠ []) ha1
        have hlen1 : 1 ≤ added.length := List.length_pos.mpr haddne
        congr 1
        apply ih
        · rw [ha2]; omega
        · rw [ha2]; omega
      · obtain ⟨added, ha1, ha2, ha3⟩ := fillRow_accounting images idx
        have haddne : added ≠ [] := by
          intro hcon
          rw [hcon] at ha1
          exact (by simpa [List.isEmpty_iff] using hempty : (fillRow images idx).1 ≠ []) ha1
        have hlen1 : 1 ≤ added.length := List.length_pos.mpr haddne
        congr 1
        apply ih
        · rw [ha2]; omega
        · rw [ha2]; omega
      · rfl

/-- Claim C4: on any non-empty list with positive aspect ratios the packer
terminates within the explicit iteration budget — growing the fuel beyond
`100·length + 1` outer iterations never changes the result — the image
cursor never exceeds the `100·length` safety bound, and the vertical cursor
strictly increases by at least `GAP` from each row to the next. -/
theorem computeGlobalLayout_terminates :
    ∀ (images : List ImageMeta), images ≠ [] → (∀ a ∈ images, 0 < a.aspectRatio) →
      (∀ extra : ℕ, buildRowsAux images (100 * images.length + 1 + extra) 0 0 =
        computeGlobalLayoutRows images) ∧
      (∀ idx : ℕ, (fillRow images idx).2.2 ≤ max idx (100 * images.length)) ∧
      List.Chain' (fun r1 r2 => ∀ a ∈ r1, ∀ b ∈ r2, a.y + GAP ≤ b.y)
        (computeGlobalLayoutRows images) := by
  intro images hne hpos
  refine ⟨?_, ?_, ?_⟩
  · intro extra
    rw [computeGlobalLayoutRows]
    exact buildRowsAux_stable images _ _ 0 0 (by omega) (by omega)
  · intro idx
    obtain ⟨added, _, ha2, ha3⟩ := fillRow_accounting images idx
    rw [ha2]
    omega
  · obtain ⟨hOK, _, hCh⟩ := buildRowsAux_rowsOK images hne hpos (100 * images.length + 1) 0 0
    exact hCh.imp (fun r1 r2 h a ha b hb => (h a ha b hb).2.2)

/-- Witness for C4 at the single-image manifest with extra fuel 7. -/
theorem computeGlobalLayout_terminates_witness :
    buildRowsAux sample1 (100 * sample1.length + 1 + 7) 0 0 = computeGlobalLayoutRows sample1 :=
  (computeGlobalLayout_terminates sample1 (by decide) (by decide)).1 7

/-! ### The visibility query: fold lemmas -/

lemma intRange_mem (a b k : ℤ) : k ∈ intRange a b ↔ a ≤ k ∧ k ≤ b := by
  unfold intRange
  constructor
  · intro h
    obtain ⟨i, hi, hk⟩ := List.mem_map.mp h
    rw [List.mem_range] at hi
    subst hk
    omega
  · intro h
    apply List.mem_map.mpr
    refine ⟨(k - a).toNat, ?_, ?_⟩
    · rw [List.mem_range]; omega
    · omega

/-- The bounds-check rejection condition of lines 177-184. -/
abbrev rejected (vX vY vW vH : ℚ) (c : Candidate) : Prop :=
  c.1.x + (c.2.1 : ℚ) * WORLD_SIZE + c.1.width < vX ∨
    vX + vW < c.1.x + (c.2.1 : ℚ) * WORLD_SIZE ∨
    c.1.y + (c.2.2 : ℚ) * WORLD_SIZE + c.1.height < vY ∨
    vY + vH < c.1.y + (c.2.2 : ℚ) * WORLD_SIZE

lemma visitStep_rejected (vX vY vW vH : ℚ) (c : Candidate)
    (st : List (ℚ × ℚ × ℤ × ℤ) × List VisibleImage)
    (h : rejected vX vY vW vH c) : visitStep vX vY vW vH st c = st := by
  simp only [visitStep]
  rw [if_pos h]

lemma visitStep_seen (vX vY vW vH : ℚ) (c : Candidate)
    (st : List (ℚ × ℚ × ℤ × ℤ) × List VisibleImage)
    (h : ¬ rejected vX vY vW vH c) (h2 : candKey c ∈ st.1) :
    visitStep vX vY vW vH st c = st := by
  simp only [visitStep]
  rw [if_neg h, if_pos h2]

lemma visitStep_emit (vX vY vW vH : ℚ) (c : Candidate)
    (st : List (ℚ × ℚ × ℤ × ℤ) × List VisibleImage)
    (h : ¬ rejected vX vY vW vH c) (h2 : candKey c ∉ st.1) :
    visitStep vX vY vW vH st c = (candKey c :: st.1, st.2 ++ [candRecord c]) := by
  simp only [visitStep]
  rw [if_neg h, if_neg h2]

lemma foldl_visitStep_seen (vX vY vW vH : ℚ) :
    ∀ (cs : List Candidate) (st : List (ℚ × ℚ × ℤ × ℤ) × List VisibleImage)
      (k : ℚ × ℚ × ℤ × ℤ),
      k ∈ (cs.foldl (visitStep vX vY vW vH) st).1 ↔
        k ∈ st.1 ∨ ∃ c ∈ cs, ¬ rejected vX vY vW vH c ∧ candKey c = k := by
  intro cs
  induction cs with
  | nil => intro st k; simp
  | cons c cs ih =>
    intro st k
    rw [List.foldl_cons]
    by_cases h1 : rejected vX vY vW vH c
    · rw [visitStep_rejected vX vY vW vH c st h1, ih]
      constructor
      · rintro (h | ⟨c', hc', hr', hk⟩)
        · exact Or.inl h
        · exact Or.inr ⟨c', List.mem_cons_of_mem _ hc', hr', hk⟩
      · rintro (h | ⟨c', hc', hr', hk⟩)
        · exact Or.inl h
        · rcases List.mem_cons.mp hc' with rfl | hc''
          · exact absurd h1 hr'
          · exact Or.inr ⟨c', hc'', hr', hk⟩
    · by_cases h2 : candKey c ∈ st.1
      · rw [visitStep_seen vX vY vW vH c st h1 h2, ih]
        constructor
        · rintro (h | ⟨c', hc', hr', hk⟩)
          · exact Or.inl h
          · exact Or.inr ⟨c', List.mem_cons_of_mem _ hc', hr', hk⟩
        · rintro (h | ⟨c', hc', hr', hk⟩)
          · exact Or.inl h
          · rcases List.mem_cons.mp hc' with rfl | hc''
            · rw [← hk]; exact Or.inl h2
            · exact Or.inr ⟨c', hc'', hr', hk⟩
      · rw [visitStep_emit vX vY vW vH c st h1 h2, ih]
        constructor
        · rintro (h | ⟨c', hc', hr', hk⟩)
          · rcases List.mem_cons.mp h with rfl | h
            · exact Or.inr ⟨c, by simp, h1, rfl⟩
            · exact Or.inl h
          · exact Or.inr ⟨c', List.mem_cons_of_mem _ hc', hr', hk⟩
        · rintro (h | ⟨c', hc', hr', hk⟩)
          · exact Or.inl (List.mem_cons_of_mem _ h)
          · rcases List.mem_cons.mp hc' with rfl | hc''
            · rw [← hk]; exact Or.inl (by simp)
            · exact Or.inr ⟨c', hc'', hr', hk⟩

lemma foldl_visitStep_out_fwd (vX vY vW vH : ℚ) :
    ∀ (cs : List Candidate) (st : List (ℚ × ℚ × ℤ × ℤ) × List VisibleImage)
      (r : VisibleImage),
      r ∈ (cs.foldl (visitStep vX vY vW vH) st).2 →
        r ∈ st.2 ∨ ∃ c ∈ cs, ¬ rejected vX vY vW vH c ∧ candRecord c = r := by
  intro cs
  induction cs with
  | nil => intro st r h; exact Or.inl (by simpa using h)
  | cons c cs ih =>
    intro st r h
    rw [List.foldl_cons] at h
    by_cases h1 : rejected vX vY vW vH c
    · rw [visitStep_rejected vX vY vW vH c st h1] at h
      rcases ih st r h with h | ⟨c', hc', hr', hrec⟩
      · exact Or.inl h
      · exact Or.inr ⟨c', List.mem_cons_of_mem _ hc', hr', hrec⟩
    · by_cases h2 : candKey c ∈ st.1
      · rw [visitStep_seen vX vY vW vH c st h1 h2] at h
        rcases ih st r h with h | ⟨c', hc', hr', hrec⟩
        · exact Or.inl h
        · exact Or.inr ⟨c', List.mem_cons_of_mem _ hc', hr', hrec⟩
      · rw [visitStep_emit vX vY vW vH c st h1 h2] at h
        rcases ih _ r h with h | ⟨c', hc', hr', hrec⟩
        · rcases List.mem_append.mp h with h | h
          · exact Or.inl h
          · simp only [List.mem_singleton] at h
            exact Or.inr ⟨c, by simp, h1, h.symm⟩
        · exact Or.inr ⟨c', List.mem_cons_of_mem _ hc', hr', hrec⟩

lemma foldl_visitStep_out_iff (vX vY vW vH : ℚ) :
    ∀ (cs : List Candidate)
      (hkey : ∀ c1 ∈ cs, ∀ c2 ∈ cs, candKey c1 = candKey c2 → candRecord c1 = candRecord c2)
      (st : List (ℚ × ℚ × ℤ × ℤ) × List VisibleImage) (r : VisibleImage),
      r ∈ (cs.foldl (visitStep vX vY vW vH) st).2 ↔
        r ∈ st.2 ∨ ∃ c ∈ cs, ¬ rejected vX vY vW vH c ∧ candRecord c = r ∧
          candKey c ∉ st.1 := by
  intro cs
  induction cs with
  | nil => intro _ st r; simp
  | cons c cs ih =>
    intro hkey st r
    have hkey' : ∀ c1 ∈ cs, ∀ c2 ∈ cs, candKey c1 = candKey c2 →
        candRecord c1 = candRecord c2 :=
      fun c1 h1 c2 h2 => hkey c1 (List.mem_cons_of_mem _ h1) c2 (List.mem_cons_of_mem _ h2)
    rw [List.foldl_cons]
    by_cases h1 : rejected vX vY vW vH c
    · rw [visitStep_rejected vX vY vW vH c st h1, ih hkey']
      constructor
      · rintro (h | ⟨c', hc', hr', hrec, hk⟩)
        · exact Or.inl h
        · exact Or.inr ⟨c', List.mem_cons_of_mem _ hc', hr', hrec, hk⟩
      · rintro (h | ⟨c', hc', hr', hrec, hk⟩)
        · exact Or.inl h
        · rcases List.mem_cons.mp hc' with rfl | hc''
          · exact absurd h1 hr'
          · exact Or.inr ⟨c', hc'', hr', hrec, hk⟩
    · by_cases h2 : candKey c ∈ st.1
      · rw [visitStep_seen vX vY vW vH c st h1 h2, ih hkey']
        constructor
        · rintro (h | ⟨c', hc', hr', hrec, hk⟩)
          · exact Or.inl h
          · exact Or.inr ⟨c', List.mem_cons_of_mem _ hc', hr', hrec, hk⟩
        · rintro (h | ⟨c', hc', hr', hrec, hk⟩)
          · exact Or.inl h
          · rcases List.mem_cons.mp hc' with rfl | hc''
            · exact absurd h2 hk
            · exact Or.inr ⟨c', hc'', hr', hrec, hk⟩
      · rw [visitStep_emit vX vY vW vH c st h1 h2, ih hkey']
        constructor
        · rintro (h | ⟨c', hc', hr', hrec, hk⟩)
          · rcases List.mem_append.mp h with h | h
            · exact Or.inl h
            · simp only [List.mem_singleton] at h
              exact Or.inr ⟨c, by simp, h1, h.symm, h2⟩
          · have hk1 : candKey c' ∉ st.1 := fun hcon => hk (List.mem_cons_of_mem _ hcon)
            exact Or.inr ⟨c', List.mem_cons_of_mem _ hc', hr', hrec, hk1⟩
        · rintro (h | ⟨c', hc', hr', hrec, hk⟩)
          · exact Or.inl (List.mem_append_left _ h)
          · rcases List.mem_cons.mp hc' with rfl | hc''
            · rw [← hrec]; exact Or.inl (List.mem_append_right _ (by simp))
            · by_cases hkk : candKey c' = candKey c
              · have := hkey c' (List.mem_cons_of_mem _ hc'') c (by simp) hkk
                rw [← hrec, this]
                exact Or.inl (List.mem_append_right _ (by simp))
              · refine Or.inr ⟨c', hc'', hr', hrec, ?_⟩
                intro hcon
                rcases List.mem_cons.mp hcon with hcon | hcon
                · exact hkk hcon
                · exact hk hcon

/-- The identifying tuple of an emitted record. -/
def rkey (r : VisibleImage) : ℚ × ℚ × ℚ × ℚ := (r.image.x, r.image.y, r.renderX, r.renderY)

/-- State invariant of the dedup loop: emitted records have world-copy-translated
positions whose dedup key has been recorded, and their identifying tuples are
pairwise distinct. -/
def StInv (st : List (ℚ × ℚ × ℤ × ℤ) × List VisibleImage) : Prop :=
  (st.2.map rkey).Nodup ∧
    ∀ r ∈ st.2, ∃ wx wy : ℤ,
      r.renderX = r.image.x + (wx : ℚ) * WORLD_SIZE ∧
      r.renderY = r.image.y + (wy : ℚ) * WORLD_SIZE ∧
      (r.image.x, r.image.y, wx, wy) ∈ st.1

lemma visitStep_StInv (vX vY vW vH : ℚ)
    (st : List (ℚ × ℚ × ℤ × ℤ) × List VisibleImage) (c : Candidate)
    (h : StInv st) : StInv (visitStep vX vY vW vH st c) := by
  obtain ⟨hnd, hinv⟩ := h
  by_cases h1 : rejected vX vY vW vH c
  · rw [visitStep_rejected vX vY vW vH c st h1]; exact ⟨hnd, hinv⟩
  · by_cases h2 : candKey c ∈ st.1
    · rw [visitStep_seen vX vY vW vH c st h1 h2]; exact ⟨hnd, hinv⟩
    · rw [visitStep_emit vX vY vW vH c st h1 h2]
      constructor
      · rw [List.map_append, List.nodup_append]
        refine ⟨hnd, by simp, ?_⟩
        intro k hk hk2
        simp only [List.map_cons, List.map_nil, List.mem_singleton] at hk2
        obtain ⟨r, hr, hrk⟩ := List.mem_map.mp hk
        obtain ⟨wx, wy, hrx, hry, hmem⟩ := hinv r hr
        subst hk2
        unfold rkey candRecord at hrk
        simp only [Prod.mk.injEq] at hrk
        obtain ⟨e1, e2, e3, e4⟩ := hrk
        apply h2
        have hwx : wx = c.2.1 := by
          have : (wx : ℚ) * WORLD_SIZE = (c.2.1 : ℚ) * WORLD_SIZE := by
            rw [e3, e1] at hrx
            linarith [hrx]
          have h12 : (wx : ℚ) = (c.2.1 : ℚ) :=
            mul_right_cancel₀ (by norm_num : (WORLD_SIZE : ℚ) ≠ 0) this
          exact_mod_cast h12
        have hwy : wy = c.2.2 := by
          have : (wy : ℚ) * WORLD_SIZE = (c.2.2 : ℚ) * WORLD_SIZE := by
            rw [e4, e2] at hry
            linarith [hry]
          have h12 : (wy : ℚ) = (c.2.2 : ℚ) :=
            mul_right_cancel₀ (by norm_num : (WORLD_SIZE : ℚ) ≠ 0) this
          exact_mod_cast h12
        unfold candKey
        rw [← e1, ← e2, ← hwx, ← hwy]
        exact hmem
      · intro r hr
        rcases List.mem_append.mp hr with hr | hr
        · obtain ⟨wx, wy, hrx, hry, hmem⟩ := hinv r hr
          exact ⟨wx, wy, hrx, hry, List.mem_cons_of_mem _ hmem⟩
        · simp only [List.mem_singleton] at hr
          subst hr
          exact ⟨c.2.1, c.2.2, rfl, rfl, by simp [candKey, candRecord]⟩

lemma foldl_visitStep_StInv (vX vY vW vH : ℚ) :
    ∀ (cs : List Candidate) (st : List (ℚ × ℚ × ℤ × ℤ) × List VisibleImage),
      StInv st → StInv (cs.foldl (visitStep vX vY vW vH) st) := by
  intro cs
  induction cs with
  | nil => intro st h; exact h
  | cons c cs ih =>
    intro st h
    rw [List.foldl_cons]
    exact ih _ (visitStep_StInv vX vY vW vH st c h)

/-! ### Candidate membership characterisation -/

/-- The viewport has a positive-extent intersection with world copy
`(wx, wy)` on both axes (the negation of the skip test of line 158). -/
def copyVisible (vX vY vW vH : ℚ) (wx wy : ℤ) : Prop :=
  max 0 (vX - (wx : ℚ) * WORLD_SIZE) <
      min WORLD_SIZE (vX + vW - (wx : ℚ) * WORLD_SIZE) ∧
    max 0 (vY - (wy : ℚ) * WORLD_SIZE) <
      min WORLD_SIZE (vY + vH - (wy : ℚ) * WORLD_SIZE)

instance (vX vY vW vH : ℚ) (wx wy : ℤ) : Decidable (copyVisible vX vY vW vH wx wy) := by
  unfold copyVisible; infer_instance

lemma mem_copyCands (vX vY vW vH : ℚ) (index : ℤ → ℤ → List PlacedImage)
    (img : PlacedImage) (wx wy wx' wy' : ℤ) :
    (img, wx, wy) ∈ copyCands vX vY vW vH index wx' wy' ↔
      wx' = wx ∧ wy' = wy ∧ copyVisible vX vY vW vH wx wy ∧
        ∃ cy cx : ℤ,
          (⌊max 0 (vY - (wy : ℚ) * WORLD_SIZE) / CELL_SIZE⌋ ≤ cy ∧
            cy ≤ ⌊min WORLD_SIZE (vY + vH - (wy : ℚ) * WORLD_SIZE) / CELL_SIZE⌋) ∧
          (⌊max 0 (vX - (wx : ℚ) * WORLD_SIZE) / CELL_SIZE⌋ ≤ cx ∧
            cx ≤ ⌊min WORLD_SIZE (vX + vW - (wx : ℚ) * WORLD_SIZE) / CELL_SIZE⌋) ∧
          img ∈ index cx cy := by
  unfold copyCands
  by_cases hskip : min WORLD_SIZE (vX + vW - (wx' : ℚ) * WORLD_SIZE) ≤
      max 0 (vX - (wx' : ℚ) * WORLD_SIZE) ∨
      min WORLD_SIZE (vY + vH - (wy' : ℚ) * WORLD_SIZE) ≤
      max 0 (vY - (wy' : ℚ) * WORLD_SIZE)
  · rw [if_pos hskip]
    simp only [List.not_mem_nil, false_iff]
    rintro ⟨rfl, rfl, ⟨hc1, hc2⟩, _⟩
    rcases hskip with h | h
    · exact absurd hc1 (not_lt.mpr h)
    · exact absurd hc2 (not_lt.mpr h)
  · rw [if_neg hskip]
    push_neg at hskip
    simp only [List.mem_flatMap, List.mem_map, intRange_mem, Prod.mk.injEq]
    constructor
    · rintro ⟨cy, hcy, cx, hcx, img2, himg2, heq1, heq2, heq3⟩
      subst heq1; subst heq2; subst heq3
      exact ⟨rfl, rfl, ⟨hskip.1, hskip.2⟩, cy, cx, hcy, hcx, himg2⟩
    · rintro ⟨rfl, rfl, _, cy, cx, hcy, hcx, himg⟩
      exact ⟨cy, hcy, cx, hcx, img, himg, rfl, rfl, rfl⟩

lemma mem_queryCandidates (vX vY vW vH : ℚ) (index : ℤ → ℤ → List PlacedImage)
    (img : PlacedImage) (wx wy : ℤ) :
    (img, wx, wy) ∈ queryCandidates vX vY vW vH index ↔
      (⌊vY / WORLD_SIZE⌋ ≤ wy ∧ wy ≤ ⌊(vY + vH) / WORLD_SIZE⌋) ∧
      (⌊vX / WORLD_SIZE⌋ ≤ wx ∧ wx ≤ ⌊(vX + vW) / WORLD_SIZE⌋) ∧
      copyVisible vX vY vW vH wx wy ∧
      ∃ cy cx : ℤ,
        (⌊max 0 (vY - (wy : ℚ) * WORLD_SIZE) / CELL_SIZE⌋ ≤ cy ∧
          cy ≤ ⌊min WORLD_SIZE (vY + vH - (wy : ℚ) * WORLD_SIZE) / CELL_SIZE⌋) ∧
        (⌊max 0 (vX - (wx : ℚ) * WORLD_SIZE) / CELL_SIZE⌋ ≤ cx ∧
          cx ≤ ⌊min WORLD_SIZE (vX + vW - (wx : ℚ) * WORLD_SIZE) / CELL_SIZE⌋) ∧
        img ∈ index cx cy := by
  unfold queryCandidates
  simp only [List.mem_flatMap, intRange_mem]
  constructor
  · rintro ⟨wy1, hwy1, wx1, hwx1, hmem⟩
    obtain ⟨rfl, rfl, hvis, hcell⟩ := (mem_copyCands vX vY vW vH index img wx wy wx1 wy1).mp hmem
    exact ⟨hwy1, hwx1, hvis, hcell⟩
  · rintro ⟨hwy, hwx, hvis, hcell⟩
    exact ⟨wy, hwy, wx, hwx,
      (mem_copyCands vX vY vW vH index img wx wy wx wy).mpr ⟨rfl, rfl, hvis, hcell⟩⟩

/-! ### Geometry: candidates versus overlap -/

lemma mem_buildSpatialIndex (L : List PlacedImage) (cx cy : ℤ) (img : PlacedImage) :
    img ∈ buildSpatialIndex L cx cy ↔ img ∈ L ∧ cellCovers img cx cy := by
  unfold buildSpatialIndex
  simp [List.mem_filter]

/-- The closed rectangle of `img` translated into world copy `(wx, wy)` meets
the closed viewport rectangle (touching boundaries count). -/
def closedRectOverlap (vX vY vW vH : ℚ) (img : PlacedImage) (wx wy : ℤ) : Prop :=
  vX ≤ img.x + (wx : ℚ) * WORLD_SIZE + img.width ∧
    img.x + (wx : ℚ) * WORLD_SIZE ≤ vX + vW ∧
    vY ≤ img.y + (wy : ℚ) * WORLD_SIZE + img.height ∧
    img.y + (wy : ℚ) * WORLD_SIZE ≤ vY + vH

instance (vX vY vW vH : ℚ) (img : PlacedImage) (wx wy : ℤ) :
    Decidable (closedRectOverlap vX vY vW vH img wx wy) := by
  unfold closedRectOverlap; infer_instance

lemma not_rejected_iff (vX vY vW vH : ℚ) (img : PlacedImage) (wx wy : ℤ) :
    ¬ rejected vX vY vW vH (img, wx, wy) ↔
      closedRectOverlap vX vY vW vH img wx wy := by
  unfold closedRectOverlap
  simp only [rejected, not_or, not_lt]

lemma copyVisible_range (vA vL : ℚ) (w : ℤ)
    (h1 : max 0 (vA - (w : ℚ) * WORLD_SIZE) <
      min WORLD_SIZE (vA + vL - (w : ℚ) * WORLD_SIZE)) :
    ⌊vA / WORLD_SIZE⌋ ≤ w ∧ w ≤ ⌊(vA + vL) / WORLD_SIZE⌋ := by
  have hW : (0 : ℚ) < WORLD_SIZE := by norm_num
  have hA : vA - (w : ℚ) * WORLD_SIZE < WORLD_SIZE :=
    lt_of_le_of_lt (le_max_right _ _) (lt_of_lt_of_le h1 (min_le_left _ _))
  have hB : (0 : ℚ) < vA + vL - (w : ℚ) * WORLD_SIZE :=
    lt_of_le_of_lt (le_max_left _ _) (lt_of_lt_of_le h1 (min_le_right _ _))
  constructor
  · have hlt : vA / WORLD_SIZE < (w : ℚ) + 1 := by
      rw [div_lt_iff hW]
      have expand : ((w : ℚ) + 1) * WORLD_SIZE = (w : ℚ) * WORLD_SIZE + WORLD_SIZE := by ring
      rw [expand]
      linarith
    have hf : (⌊vA / WORLD_SIZE⌋ : ℚ) ≤ vA / WORLD_SIZE := Int.floor_le _
    have hc : (⌊vA / WORLD_SIZE⌋ : ℚ) < (w : ℚ) + 1 := lt_of_le_of_lt hf hlt
    have hc2 : ⌊vA / WORLD_SIZE⌋ < w + 1 := by exact_mod_cast hc
    omega
  · apply Int.le_floor.mpr
    rw [le_div_iff hW]
    linarith

lemma axis_cell_witness (x w vA vL off : ℚ)
    (hx0 : 0 ≤ x) (hw : 0 ≤ w) (hxW : x + w ≤ WORLD_SIZE)
    (hnd : max 0 (vA - off) < min WORLD_SIZE (vA + vL - off))
    (h1 : vA ≤ x + off + w) (h2 : x + off ≤ vA + vL) :
    ∃ cz : ℤ, (⌊max 0 (vA - off) / CELL_SIZE⌋ ≤ cz ∧
        cz ≤ ⌊min WORLD_SIZE (vA + vL - off) / CELL_SIZE⌋) ∧
      ⌊x / CELL_SIZE⌋ ≤ cz ∧ cz ≤ ⌊(x + w) / CELL_SIZE⌋ := by
  have hC : (0 : ℚ) < CELL_SIZE := by norm_num
  have hmono : ∀ a b : ℚ, a ≤ b → ⌊a / CELL_SIZE⌋ ≤ ⌊b / CELL_SIZE⌋ := fun a b hab =>
    Int.floor_mono ((div_le_div_right hC).mpr hab)
  refine ⟨⌊max x (max 0 (vA - off)) / CELL_SIZE⌋, ⟨?_, ?_⟩, ?_, ?_⟩
  · exact hmono _ _ (le_max_right _ _)
  · apply hmono
    apply max_le
    · apply le_min
      · linarith
      · linarith
    · exact le_of_lt hnd
  · exact hmono _ _ (le_max_left _ _)
  · apply hmono
    apply max_le
    · linarith
    · apply max_le
      · linarith
      · linarith

lemma candidate_iff_spec (vX vY vW vH : ℚ) (L : List PlacedImage)
    (Hin : ∀ p ∈ L, 0 ≤ p.x ∧ 0 ≤ p.y ∧ 0 ≤ p.width ∧ 0 ≤ p.height ∧
      p.x + p.width ≤ WORLD_SIZE ∧ p.y + p.height ≤ WORLD_SIZE)
    (img : PlacedImage) (wx wy : ℤ) :
    ((img, wx, wy) ∈ queryCandidates vX vY vW vH (buildSpatialIndex L) ∧
        ¬ rejected vX vY vW vH (img, wx, wy)) ↔
      img ∈ L ∧ copyVisible vX vY vW vH wx wy ∧
        closedRectOverlap vX vY vW vH img wx wy := by
  constructor
  · rintro ⟨hmem, hrej⟩
    obtain ⟨_, _, hvis, cy, cx, _, _, himg⟩ :=
      (mem_queryCandidates vX vY vW vH (buildSpatialIndex L) img wx wy).mp hmem
    exact ⟨((mem_buildSpatialIndex L cx cy img).mp himg).1, hvis,
      (not_rejected_iff vX vY vW vH img wx wy).mp hrej⟩
  · rintro ⟨hL, hvis, hov⟩
    obtain ⟨hx0, hy0, hw0, hh0, hxW, hyW⟩ := Hin img hL
    obtain ⟨hov1, hov2, hov3, hov4⟩ := hov
    refine ⟨(mem_queryCandidates vX vY vW vH (buildSpatialIndex L) img wx wy).mpr
      ⟨copyVisible_range vY vH wy hvis.2, copyVisible_range vX vW wx hvis.1, hvis, ?_⟩,
      (not_rejected_iff vX vY vW vH img wx wy).mpr ⟨hov1, hov2, hov3, hov4⟩⟩
    obtain ⟨cy, hcyr, hcy1, hcy2⟩ :=
      axis_cell_witness img.y img.height vY vH ((wy : ℚ) * WORLD_SIZE)
        hy0 hh0 hyW hvis.2 hov3 hov4
    obtain ⟨cx, hcxr, hcx1, hcx2⟩ :=
      axis_cell_witness img.x img.width vX vW ((wx : ℚ) * WORLD_SIZE)
        hx0 hw0 hxW hvis.1 hov1 hov2
    exact ⟨cy, cx, hcyr, hcxr,
      (mem_buildSpatialIndex L cx cy img).mpr ⟨hL, hcx1, hcx2, hcy1, hcy2⟩⟩

/-! ### The three query theorems -/

/-- Claim C10: a viewport of non-positive width or height yields the empty
result — every world copy's clip is empty, so nothing is visited. -/
theorem getVisibleImages_empty_viewport :
    ∀ (vX vY vW vH : ℚ) (images : List ImageMeta), vW ≤ 0 ∨ vH ≤ 0 →
      getVisibleImagesPure vX vY vW vH images = [] := by
  intro vX vY vW vH images h
  unfold getVisibleImagesPure getVisibleImagesCore
  have hcand : queryCandidates vX vY vW vH
      (buildSpatialIndex (computeGlobalLayoutPure images)) = [] := by
    apply List.eq_nil_iff_forall_not_mem.mpr
    rintro ⟨img, wx, wy⟩ hmem
    obtain ⟨_, _, ⟨hc1, hc2⟩, _⟩ := (mem_queryCandidates vX vY vW vH
      (buildSpatialIndex (computeGlobalLayoutPure images)) img wx wy).mp hmem
    rcases h with h | h
    · have h1 : min WORLD_SIZE (vX + vW - (wx : ℚ) * WORLD_SIZE) ≤
          vX + vW - (wx : ℚ) * WORLD_SIZE := min_le_right _ _
      have h2 : vX - (wx : ℚ) * WORLD_SIZE ≤ max 0 (vX - (wx : ℚ) * WORLD_SIZE) :=
        le_max_right _ _
      linarith
    · have h1 : min WORLD_SIZE (vY + vH - (wy : ℚ) * WORLD_SIZE) ≤
          vY + vH - (wy : ℚ) * WORLD_SIZE := min_le_right _ _
      have h2 : vY - (wy : ℚ) * WORLD_SIZE ≤ max 0 (vY - (wy : ℚ) * WORLD_SIZE) :=
        le_max_right _ _
      linarith
  rw [hcand]
  rfl

/-- Witness for C10: a zero-width viewport. -/
theorem getVisibleImages_empty_viewport_witness :
    getVisibleImagesPure 0 0 0 100 sample1 = [] :=
  getVisibleImages_empty_viewport 0 0 0 100 sample1 (Or.inl le_rfl)

/-- Claim C9: every emitted render position is the image's local position
shifted by a whole number of world tiles on each axis. -/
theorem renders_are_world_translates :
    ∀ (vX vY vW vH : ℚ) (images : List ImageMeta),
      ∀ r ∈ getVisibleImagesPure vX vY vW vH images,
        ∃ wx wy : ℤ, r.renderX = r.image.x + (wx : ℚ) * WORLD_SIZE ∧
          r.renderY = r.image.y + (wy : ℚ) * WORLD_SIZE := by
  intro vX vY vW vH images r hr
  unfold getVisibleImagesPure getVisibleImagesCore at hr
  rcases foldl_visitStep_out_fwd vX vY vW vH _ _ r hr with h | ⟨c, _, _, hrec⟩
  · simp at h
  · subst hrec
    exact ⟨c.2.1, c.2.2, rfl, rfl⟩

/-- Witness for C9: the instance found at the negative-coordinate query. -/
theorem renders_are_world_translates_witness :
    ∃ wx wy : ℤ, (-12000 : ℚ) = (0 : ℚ) + (wx : ℚ) * WORLD_SIZE ∧
      (-12000 : ℚ) = (0 : ℚ) + (wy : ℚ) * WORLD_SIZE := by
  have h := renders_are_world_translates (-12050) (-12050) 200 200 sample1
    ⟨⟨"cat", 0, 0, 324, 324⟩, -12000, -12000⟩ (by decide)
  simpa using h

/-- Membership in the query result according to the specification: some image
instance of the layout, in a world copy the viewport's interior meets, whose
translated closed rectangle meets the closed viewport rectangle. -/
def specMem (vX vY vW vH : ℚ) (L : List PlacedImage) (r : VisibleImage) : Prop :=
  ∃ img wx wy, img ∈ L ∧ copyVisible vX vY vW vH wx wy ∧
    closedRectOverlap vX vY vW vH img wx wy ∧
    r = ⟨img, img.x + (wx : ℚ) * WORLD_SIZE, img.y + (wy : ℚ) * WORLD_SIZE⟩

/-- Amended C1: under the layout invariants (images inside the world square
with non-negative sizes, distinct positions), the query returns exactly the
instances over world copies whose square the viewport's interior meets, whose
translated closed rectangle meets the closed viewport rectangle — touching
boundaries count, and copies only grazed on their boundary line are skipped.
Each instance appears exactly once, and the concrete negative-coordinate call
returns instances translated by the copy offsets `(-12000, -12000)`. -/
theorem getVisibleImages_exact :
    (∀ (images : List ImageMeta) (vX vY vW vH : ℚ),
      (∀ p ∈ computeGlobalLayoutPure images, 0 ≤ p.x ∧ 0 ≤ p.y ∧ 0 ≤ p.width ∧
        0 ≤ p.height ∧ p.x + p.width ≤ WORLD_SIZE ∧ p.y + p.height ≤ WORLD_SIZE) →
      ((computeGlobalLayoutPure images).map (fun p => (p.x, p.y))).Nodup →
      (∀ r, r ∈ getVisibleImagesPure vX vY vW vH images ↔
        specMem vX vY vW vH (computeGlobalLayoutPure images) r) ∧
      ((getVisibleImagesPure vX vY vW vH images).map rkey).Nodup) ∧
    (∃ r ∈ getVisibleImagesPure (-12050) (-12050) 200 200 sample1,
      r.renderX = r.image.x - 12000 ∧ r.renderY = r.image.y - 12000) ∧
    getVisibleImagesPure (-12050) (-12050) 200 200 sample1 ≠ [] := by
  refine ⟨?_, ?_, ?_⟩
  · intro images vX vY vW vH Hin Hnodup
    have hkey : ∀ c1 ∈ queryCandidates vX vY vW vH
        (buildSpatialIndex (computeGlobalLayoutPure images)),
        ∀ c2 ∈ queryCandidates vX vY vW vH
          (buildSpatialIndex (computeGlobalLayoutPure images)),
        candKey c1 = candKey c2 → candRecord c1 = candRecord c2 := by
      rintro ⟨i1, x1, y1⟩ h1 ⟨i2, x2, y2⟩ h2 hk
      unfold candKey at hk
      simp only [Prod.mk.injEq] at hk
      obtain ⟨e1, e2, e3, e4⟩ := hk
      obtain ⟨_, _, _, cy1, cx1, _, _, hi1⟩ :=
        (mem_queryCandidates _ _ _ _ _ i1 x1 y1).mp h1
      obtain ⟨_, _, _, cy2, cx2, _, _, hi2⟩ :=
        (mem_queryCandidates _ _ _ _ _ i2 x2 y2).mp h2
      have hL1 := ((mem_buildSpatialIndex _ cx1 cy1 i1).mp hi1).1
      have hL2 := ((mem_buildSpatialIndex _ cx2 cy2 i2).mp hi2).1
      have himg : i1 = i2 :=
        List.inj_on_of_nodup_map Hnodup hL1 hL2 (by rw [e1, e2])
      subst himg; subst e3; subst e4
      rfl
    constructor
    · intro r
      unfold getVisibleImagesPure getVisibleImagesCore
      rw [foldl_visitStep_out_iff vX vY vW vH _ hkey ([], []) r]
      constructor
      · rintro (h | ⟨⟨img, wx, wy⟩, hc, hrej, hrec, _⟩)
        · exact absurd h (List.not_mem_nil r)
        · obtain ⟨hL, hvis, hov⟩ :=
            (candidate_iff_spec vX vY vW vH _ Hin img wx wy).mp ⟨hc, hrej⟩
          exact ⟨img, wx, wy, hL, hvis, hov, hrec.symm⟩
      · rintro ⟨img, wx, wy, hL, hvis, hov, rfl⟩
        obtain ⟨hc, hrej⟩ :=
          (candidate_iff_spec vX vY vW vH _ Hin img wx wy).mpr ⟨hL, hvis, hov⟩
        exact Or.inr ⟨(img, wx, wy), hc, hrej, rfl, List.not_mem_nil _⟩
    · exact (foldl_visitStep_StInv vX vY vW vH _ ([], []) ⟨by simp, by simp⟩).1
  · exact ⟨⟨⟨"cat", 0, 0, 324, 324⟩, -12000, -12000⟩, by decide, by decide⟩
  · decide

/-- Overlap in the strict sense: the translated image rectangle and the
viewport rectangle intersect with positive area. -/
def openRectOverlap (vX vY vW vH : ℚ) (img : PlacedImage) (wx wy : ℤ) : Prop :=
  vX < img.x + (wx : ℚ) * WORLD_SIZE + img.width ∧
    img.x + (wx : ℚ) * WORLD_SIZE < vX + vW ∧
    vY < img.y + (wy : ℚ) * WORLD_SIZE + img.height ∧
    img.y + (wy : ℚ) * WORLD_SIZE < vY + vH

instance (vX vY vW vH : ℚ) (img : PlacedImage) (wx wy : ℤ) :
    Decidable (openRectOverlap vX vY vW vH img wx wy) := by
  unfold openRectOverlap; infer_instance

/-- Counterexample for C1 as stated: the result is not the overlap filter in
either sense of "overlaps".  The first image (locally `[0,324]×[0,324]`) is
returned for the viewport `(324, 0, 100, 100)` although it only touches its
left edge (no positive-area overlap); and for the viewport `(0, 0, 12000,
100)` the copy `wx = 1` instance of the same image touches the right viewport
edge (closed overlap at `renderX = 12000`) yet is not returned, because that
copy's clip is empty and the copy is skipped. -/
theorem getVisibleImages_exact_counterexample :
    ((⟨⟨"cat", 0, 0, 324, 324⟩, 0, 0⟩ : VisibleImage) ∈
        getVisibleImagesPure 324 0 100 100 sample1 ∧
      ¬ openRectOverlap 324 0 100 100 ⟨"cat", 0, 0, 324, 324⟩ 0 0) ∧
    (closedRectOverlap 0 0 12000 100 ⟨"cat", 0, 0, 324, 324⟩ 1 0 ∧
      (⟨⟨"cat", 0, 0, 324, 324⟩, 12000, 0⟩ : VisibleImage) ∉
        getVisibleImagesPure 0 0 12000 100 sample1) :=
  ⟨⟨by decide, by decide⟩, by decide, by decide⟩

/-- Witness for the amended C1: the negative-coordinate query contains the
first image translated by the copy offsets `(-12000, -12000)`. -/
theorem getVisibleImages_exact_witness :
    (⟨⟨"cat", 0, 0, 324, 324⟩, -12000, -12000⟩ : VisibleImage) ∈
      getVisibleImagesPure (-12050) (-12050) 200 200 sample1 :=
  ((getVisibleImages_exact.1 sample1 (-12050) (-12050) 200 200
      (by decide) (by decide)).1 _).mpr
    ⟨⟨"cat", 0, 0, 324, 324⟩, -1, -1, by decide, by decide, by decide, by decide⟩
